import Mathlib

/-!
# Verification of the Qigong Energy Calculator engine

Shallow embedding of the energy-progression engine of
`QigongCalculator.jsx`.  JavaScript numbers are modelled as exact
rationals (`Rat`); the two decimal-rounding operations the source
performs (`parseFloat(x.toFixed(2))`, `parseFloat(x.toFixed(6))`) are
modelled by `toFixed2` / `toFixed6`, and `Math.round` by `jsRound`
(round half toward plus infinity, per ECMA semantics).

UI/timer bookkeeping (`isPracticing`, `startTime`, `elapsedTime`,
`editingDay`, `isLoading`) is presentation state and is not part of the
engine state; the accumulated-seconds figure enters only as the input of
`totalMinutesToday`.  Persistence (Supabase) is modelled by a boolean
`persistOk` parameter on the operations that persist: the source applies
or skips its local-state updates around the persistence call exactly as
each operation's definition below records.
-/

set_option maxRecDepth 4000

/-- JS `Math.round`: round half toward plus infinity. -/
def jsRound (q : Rat) : Int := ⌊q + 1/2⌋

/-- JS `parseFloat(x.toFixed(2))`: round to 2 decimal places. -/
def toFixed2 (q : Rat) : Rat := ((jsRound (q * 100) : Int) : Rat) / 100

/-- JS `parseFloat(x.toFixed(6))`: round to 6 decimal places. -/
def toFixed6 (q : Rat) : Rat := ((jsRound (q * 1000000) : Int) : Rat) / 1000000

/-- One row of the daily log (`dailyLog` entries / Supabase `calculations`
rows).  `gain`, `loss` and `growthFactor` are nullable in the source. -/
structure DayEntry where
  day : Int
  energy : Rat
  practice : Bool
  minutes : Int
  gain : Option Rat
  loss : Option Rat
  growthFactor : Option Rat
deriving Repr, DecidableEq

/-- The engine state: the component state `dailyLog`, `currentDay`,
`currentEnergy`. -/
structure EngineState where
  dailyLog : List DayEntry
  currentDay : Int
  currentEnergy : Rat
deriving Repr, DecidableEq

/-- Initial component state: empty log, day 1, energy 1. -/
def initialState : EngineState := { dailyLog := [], currentDay := 1, currentEnergy := 1 }

/-- `calculateGrowthFactor`: `baseValue + minutes * minuteMultiplier`. -/
def calculateGrowthFactor (minutes : Rat) : Rat := 0.995776 + minutes * 0.001418

/-- `dailyEnergyLoss = 0.1`: 10% loss on skipped days. -/
def dailyEnergyLoss : Rat := 0.1

/-- `totalMinutesToday = Math.max(1, Math.round(newAccumulatedSeconds / 60))`. -/
def totalMinutesToday (newAccumulatedSeconds : Nat) : Int :=
  max 1 (jsRound ((newAccumulatedSeconds : Rat) / 60))

/-- `startOfDayEnergy` in `handleEndPractice`: the energy of the entry
for `currentDay - 1`, or 1 when there is none (day 1). -/
def startOfDayEnergy (s : EngineState) : Rat :=
  ((s.dailyLog.find? (fun l => l.day = s.currentDay - 1)).map (fun l => l.energy)).getD 1

/-- The practice log entry built in `handleEndPractice`: the new energy
compounds from `startOfDayEnergy`. -/
def logEntryData (minutes : Int) (s : EngineState) : DayEntry :=
  let growthFactor := calculateGrowthFactor (minutes : Rat)
  let newTotalEnergyToday := startOfDayEnergy s * growthFactor
  let totalGainToday := newTotalEnergyToday - startOfDayEnergy s
  { day := s.currentDay
    energy := toFixed2 newTotalEnergyToday
    practice := true
    minutes := minutes
    gain := some (toFixed2 totalGainToday)
    loss := none
    growthFactor := some (toFixed6 growthFactor) }

/-- `findIndex`-then-replace (or push) on the log, as `handleEndPractice`
does with `dailyLog.findIndex(log => log.day === currentDay)`:
the first entry with the same `day` is replaced in place, otherwise the
entry is appended. -/
def upsertByDay (entry : DayEntry) : List DayEntry → List DayEntry
  | [] => [entry]
  | e :: rest =>
    if e.day = entry.day then entry :: rest else e :: upsertByDay entry rest

/-- `handleEndPractice` (engine effect, given the total minutes figure):
replace-or-append today's practice entry and set `currentEnergy` to the
unrounded `newTotalEnergyToday`.  `currentDay` is not touched. -/
def handleEndPractice (minutes : Int) (s : EngineState) : EngineState :=
  let growthFactor := calculateGrowthFactor (minutes : Rat)
  let newTotalEnergyToday := startOfDayEnergy s * growthFactor
  { dailyLog := upsertByDay (logEntryData minutes s) s.dailyLog
    currentDay := s.currentDay
    currentEnergy := newTotalEnergyToday }

/-- `handleEndPractice` as invoked from the timer: minutes are derived
from the accumulated seconds plus the just-finished interval. -/
def handleEndPracticeTimer (accumulatedSecondsToday currentIntervalSeconds : Nat)
    (s : EngineState) : EngineState :=
  handleEndPractice (totalMinutesToday (accumulatedSecondsToday + currentIntervalSeconds)) s

/-- `handleEndPractice` with the persistence outcome made explicit: the
source updates the local state before the Supabase upsert and swallows
any upsert error in an empty catch block, so the resulting in-memory
state does not depend on the persistence outcome. -/
def handleEndPracticeOp (persistOk : Bool) (minutes : Int) (s : EngineState) : EngineState :=
  let _ := persistOk
  handleEndPractice minutes s

/-- `logSkippedDay`: append a skip entry for `currentDay` (10% decay),
set `currentEnergy` to the unrounded new energy, and advance
`currentDay` by 1. -/
def logSkippedDay (s : EngineState) : EngineState :=
  let energyLoss := s.currentEnergy * dailyEnergyLoss
  let newEnergy := s.currentEnergy - energyLoss
  let skipLogData : DayEntry :=
    { day := s.currentDay
      energy := toFixed2 newEnergy
      practice := false
      minutes := 0
      gain := none
      loss := some (toFixed2 energyLoss)
      growthFactor := none }
  { dailyLog := s.dailyLog ++ [skipLogData]
    currentDay := s.currentDay + 1
    currentEnergy := newEnergy }

/-- `logSkippedDay` with the persistence outcome made explicit: the local
state is updated before the Supabase insert and errors are swallowed, so
the result does not depend on the persistence outcome. -/
def logSkippedDayOp (persistOk : Bool) (s : EngineState) : EngineState :=
  let _ := persistOk
  logSkippedDay s

/-- `advanceToNextDay`: if no entry exists for `currentDay`, synthesize
an implicit skip entry (same formula as `logSkippedDay`), then increment
`currentDay`. -/
def advanceToNextDay (s : EngineState) : EngineState :=
  if s.dailyLog.any (fun l => l.day = s.currentDay) then
    { s with currentDay := s.currentDay + 1 }
  else
    let energyLoss := s.currentEnergy * dailyEnergyLoss
    let newEnergy := s.currentEnergy - energyLoss
    let skipLog : DayEntry :=
      { day := s.currentDay
        energy := toFixed2 newEnergy
        practice := false
        minutes := 0
        gain := none
        loss := some (toFixed2 energyLoss)
        growthFactor := none }
    { dailyLog := s.dailyLog ++ [skipLog]
      currentDay := s.currentDay + 1
      currentEnergy := newEnergy }

/-- The body of the recalculation loop of `recalculateEnergyFromDay` for
one entry: recompute `energy`/`gain`/`loss`/`growthFactor` from the
previous (freshly recomputed) energy; `day`, `practice` and `minutes`
are kept. -/
def recalcEntry (previousDayEnergy : Rat) (e : DayEntry) : DayEntry :=
  if e.practice then
    let growthFactor := calculateGrowthFactor (e.minutes : Rat)
    let newEnergy := previousDayEnergy * growthFactor
    let energyGain := newEnergy - previousDayEnergy
    { e with
      energy := toFixed2 newEnergy
      gain := some (toFixed2 energyGain)
      growthFactor := some (toFixed6 growthFactor)
      loss := none }
  else
    let energyLoss := previousDayEnergy * dailyEnergyLoss
    let newEnergy := previousDayEnergy - energyLoss
    { e with
      energy := toFixed2 newEnergy
      loss := some (toFixed2 energyLoss)
      gain := none
      growthFactor := none }

/-- The recalculation loop (`for i = startIndex; i < length; i++`),
rendered as structural recursion over the suffix being recomputed: each
step's starting energy is the previous step's freshly recomputed
energy. -/
def recalcList (previousDayEnergy : Rat) : List DayEntry → List DayEntry
  | [] => []
  | e :: rest =>
    let e2 := recalcEntry previousDayEnergy e
    e2 :: recalcList e2.energy rest

/-- `recalculateEnergyFromDay` (pure log transformation): the prefix
before `startIndex` is untouched; the suffix from `startIndex` is
recomputed starting from the energy of the entry at `startIndex - 1`
(1 when `startIndex = 0`). -/
def recalculateEnergyFromDay (startIndex : Nat) (logData : List DayEntry) : List DayEntry :=
  let previousDayEnergy :=
    if 0 < startIndex then ((logData[startIndex - 1]?).map (fun l => l.energy)).getD 1
    else 1
  logData.take startIndex ++ recalcList previousDayEnergy (logData.drop startIndex)

/-- JS `Array.prototype.findLast`: the last element satisfying the
predicate. -/
def findLastJS (p : DayEntry → Bool) (l : List DayEntry) : Option DayEntry :=
  l.reverse.find? p

/-- `recalculateEnergyFromDay` as a state operation, persistence outcome
explicit: the batch upsert happens before any local-state update, and on
upsert failure the function returns with the in-memory state unchanged
(the upsert is only attempted when the batch is nonempty, i.e. when
`startIndex < logData.length`).  On success, `dailyLog` becomes the
recomputed log and `currentEnergy` is set to the energy of the entry for
`currentDay` if present, else the energy of the last entry before
`currentDay`, else 1. -/
def recalculateEnergyFromDayOp (persistOk : Bool) (startIndex : Nat)
    (logData : List DayEntry) (s : EngineState) : EngineState :=
  if startIndex < logData.length ∧ persistOk = false then s
  else
    let recalculatedLog := recalculateEnergyFromDay startIndex logData
    let energyBeforeCurrentDay :=
      ((findLastJS (fun l => l.day < s.currentDay) recalculatedLog).map
        (fun l => l.energy)).getD 1
    let currentDayLog := recalculatedLog.find? (fun l => l.day = s.currentDay)
    { dailyLog := recalculatedLog
      currentDay := s.currentDay
      currentEnergy := ((currentDayLog.map (fun l => l.energy)).getD energyBeforeCurrentDay) }

/-- `handleEditMinutes`: `newMinutes` is the result of `parseInt`
(`none` models `NaN`).  Invalid input, an unknown day, a non-practice
entry or unchanged minutes are rejected with no state change; otherwise
the edited log is recomputed from the target index. -/
def handleEditMinutes (persistOk : Bool) (day : Int) (newMinutes : Option Int)
    (s : EngineState) : EngineState :=
  match newMinutes with
  | none => s
  | some newM =>
    if newM < 0 then s
    else
      match s.dailyLog.findIdx? (fun l => l.day = day) with
      | none => s
      | some targetIndex =>
        match s.dailyLog[targetIndex]? with
        | none => s
        | some target =>
          if target.practice = false then s
          else if target.minutes = newM then s
          else
            recalculateEnergyFromDayOp persistOk targetIndex
              (s.dailyLog.set targetIndex { target with minutes := newM }) s

/-- `resetSimulation`: clears the Supabase table first and resets the
local state only when the user confirmed and the delete succeeded. -/
def resetSimulation (confirmed persistOk : Bool) (s : EngineState) : EngineState :=
  if confirmed = false then s
  else if persistOk = false then s
  else initialState

/-- The startup `fetchLog`: on success with a nonempty log, rebuild
`currentEnergy` from the last entry and `currentDay` as the last day
plus one; otherwise (empty data or fetch error) the defaults. -/
def loadLog (fetchOk : Bool) (data : List DayEntry) : EngineState :=
  if fetchOk = false then initialState
  else
    match data.getLast? with
    | none => initialState
    | some lastLog =>
      { dailyLog := data, currentDay := lastLog.day + 1, currentEnergy := lastLog.energy }

/-- States reachable by sequences of engine operations from the initial
state.  Loaded logs come from the Supabase query ordered by the unique
key `day`, hence strictly ascending. -/
inductive Reachable : EngineState → Prop
  | init : Reachable initialState
  | endPractice (s : EngineState) (ok : Bool) (m : Int) :
      Reachable s → Reachable (handleEndPracticeOp ok m s)
  | skip (s : EngineState) (ok : Bool) :
      Reachable s → Reachable (logSkippedDayOp ok s)
  | advance (s : EngineState) :
      Reachable s → Reachable (advanceToNextDay s)
  | edit (s : EngineState) (ok : Bool) (d : Int) (m : Option Int) :
      Reachable s → Reachable (handleEditMinutes ok d m s)
  | reset (s : EngineState) (c ok : Bool) :
      Reachable s → Reachable (resetSimulation c ok s)
  | load (ok : Bool) (data : List DayEntry) :
      data.Pairwise (fun a b => a.day < b.day) → Reachable (loadLog ok data)

/-! ## Supporting lemmas -/

theorem toFixed2_idem (q : Rat) : toFixed2 (toFixed2 q) = toFixed2 q := by
  unfold toFixed2 jsRound
  rw [show ((⌊q * 100 + 1 / 2⌋ : Int) : Rat) / 100 * 100 = ((⌊q * 100 + 1 / 2⌋ : Int) : Rat) by
    field_simp]
  rw [Int.floor_int_add, show ⌊(1 / 2 : Rat)⌋ = 0 by norm_num, add_zero]

theorem getElem_some_lt_length {α : Type} {l : List α} {i : Nat} {a : α}
    (h : l[i]? = some a) : i < l.length := by
  by_contra hc
  push_neg at hc
  rw [List.getElem?_eq_none hc] at h
  exact Option.noConfusion h

theorem upsertByDay_of_not_mem (entry : DayEntry) (l : List DayEntry)
    (h : ∀ e ∈ l, e.day ≠ entry.day) : upsertByDay entry l = l ++ [entry] := by
  induction l with
  | nil => rfl
  | cons e rest ih =>
    have he : e.day ≠ entry.day := h e (List.mem_cons_self _ _)
    simp only [upsertByDay, if_neg he, List.cons_append, List.cons.injEq, true_and]
    exact ih fun x hx => h x (List.mem_cons_of_mem _ hx)

theorem upsertByDay_replace (entry t : DayEntry) (l₁ l₂ : List DayEntry)
    (h₁ : ∀ x ∈ l₁, x.day ≠ entry.day) (ht : t.day = entry.day) :
    upsertByDay entry (l₁ ++ t :: l₂) = l₁ ++ entry :: l₂ := by
  induction l₁ with
  | nil => simp [upsertByDay, ht]
  | cons x rest ih =>
    have hx : x.day ≠ entry.day := h₁ x (List.mem_cons_self _ _)
    simp only [List.cons_append, upsertByDay, if_neg hx, List.cons.injEq, true_and]
    exact ih fun y hy => h₁ y (List.mem_cons_of_mem _ hy)

/-! ## C4: the growth-factor function -/

/-- C4: `calculateGrowthFactor` is the linear map
`minutes ↦ 0.995776 + minutes * 0.001418`; it is strictly monotone, and
`calculateGrowthFactor 0 = 0.995776`, `calculateGrowthFactor 40 =
1.052496`, while `calculateGrowthFactor 120 = 1.165936` (the spec's
claimed value 1.166936 is off by exactly 0.001). -/
theorem growthFactor_monotone_and_values :
    (∀ x y : Rat, x < y → calculateGrowthFactor x < calculateGrowthFactor y) ∧
    calculateGrowthFactor 0 = 0.995776 ∧
    calculateGrowthFactor 40 = 1.052496 ∧
    calculateGrowthFactor 120 = 1.165936 := by
  refine ⟨fun x y hxy => ?_, by norm_num [calculateGrowthFactor],
    by norm_num [calculateGrowthFactor], by norm_num [calculateGrowthFactor]⟩
  have h : x * (0.001418 : Rat) < y * 0.001418 :=
    mul_lt_mul_of_pos_right hxy (by norm_num)
  unfold calculateGrowthFactor
  linarith

/-- C4 witness: the strict monotonicity applied at 3 < 5. -/
theorem growthFactor_monotone_witness :
    calculateGrowthFactor 3 < calculateGrowthFactor 5 :=
  growthFactor_monotone_and_values.1 3 5 (by norm_num)

/-- C4 counterexample: `calculateGrowthFactor 120` is 1.165936, not
approximately 1.166936 — the gap is exactly 1/1000, while the other
claimed values are exact. -/
theorem growthFactor_120_not_as_claimed :
    calculateGrowthFactor 120 = 1.165936 ∧
    (1.166936 : Rat) - calculateGrowthFactor 120 = 1 / 1000 := by
  norm_num [calculateGrowthFactor]

/-! ## C3: append skip day -/

/-- C3: `logSkippedDay` records `loss = currentEnergy * dailyEnergyLoss`
and new energy `currentEnergy - loss` (which is exactly `E * 0.9`, the
stored entry energy being that value rounded to 2 decimals), appends an
entry with `practice = false`, `minutes = 0`, `loss` populated and
`gain`/`growthFactor` cleared, and sets `currentEnergy` to the
(unrounded) new energy. -/
theorem logSkippedDay_spec (s : EngineState) :
    logSkippedDay s =
      { dailyLog := s.dailyLog ++
          [{ day := s.currentDay
             energy := toFixed2 (s.currentEnergy - s.currentEnergy * dailyEnergyLoss)
             practice := false
             minutes := 0
             gain := none
             loss := some (toFixed2 (s.currentEnergy * dailyEnergyLoss))
             growthFactor := none }]
        currentDay := s.currentDay + 1
        currentEnergy := s.currentEnergy - s.currentEnergy * dailyEnergyLoss } ∧
    (∀ E : Rat, E - E * dailyEnergyLoss = E * (9 / 10)) := by
  refine ⟨rfl, fun E => ?_⟩
  unfold dailyEnergyLoss
  ring_nf

/-! ## C10: timer-path minutes are clamped to at least 1 -/

/-- C10: the end-practice path records
`minutes = max 1 (round (accumulatedSeconds / 60))`, so every finalized
practice entry — even a zero-second session — has at least 1 minute,
while 1- and 2-minute sessions still get a growth factor below 1. -/
theorem timer_minutes_at_least_one (a i : Nat) (s : EngineState) :
    handleEndPracticeTimer a i s
      = handleEndPractice (max 1 (jsRound (((a + i : Nat) : Rat) / 60))) s ∧
    (logEntryData (totalMinutesToday (a + i)) s).minutes
      = max 1 (jsRound (((a + i : Nat) : Rat) / 60)) ∧
    1 ≤ (logEntryData (totalMinutesToday (a + i)) s).minutes ∧
    totalMinutesToday 0 = 1 ∧
    calculateGrowthFactor 1 < 1 ∧
    calculateGrowthFactor 2 < 1 := by
  refine ⟨rfl, rfl, ?_, by norm_num [totalMinutesToday, jsRound],
    by norm_num [calculateGrowthFactor], by norm_num [calculateGrowthFactor]⟩
  show 1 ≤ totalMinutesToday (a + i)
  exact le_max_left _ _

/-! ## C2: append practice day -/

/-- C2: `handleEndPractice m` builds the entry from
`startOfDayEnergy` (which is 1 on an empty log and otherwise the energy
of the entry for the previous day when present): entry energy
`startOfDayEnergy * calculateGrowthFactor m` (rounded to 2 decimals for
storage), gain that energy minus `startOfDayEnergy`; the entry replaces
an existing `currentDay` entry in place or is appended; `currentEnergy`
becomes the unrounded new energy. -/
theorem handleEndPractice_spec (m : Int) (s : EngineState) :
    (handleEndPractice m s).currentEnergy
      = startOfDayEnergy s * calculateGrowthFactor (m : Rat) ∧
    (handleEndPractice m s).currentDay = s.currentDay ∧
    (handleEndPractice m s).dailyLog = upsertByDay (logEntryData m s) s.dailyLog ∧
    (logEntryData m s).energy
      = toFixed2 (startOfDayEnergy s * calculateGrowthFactor (m : Rat)) ∧
    (logEntryData m s).gain
      = some (toFixed2 (startOfDayEnergy s * calculateGrowthFactor (m : Rat)
          - startOfDayEnergy s)) ∧
    (logEntryData m s).practice = true ∧
    (logEntryData m s).minutes = m ∧
    (logEntryData m s).loss = none ∧
    (logEntryData m s).growthFactor = some (toFixed6 (calculateGrowthFactor (m : Rat))) ∧
    (logEntryData m s).day = s.currentDay ∧
    (s.dailyLog = [] → startOfDayEnergy s = 1) ∧
    (∀ e, s.dailyLog.find? (fun l => l.day = s.currentDay - 1) = some e →
      startOfDayEnergy s = e.energy) ∧
    ((∀ e ∈ s.dailyLog, e.day ≠ s.currentDay) →
      (handleEndPractice m s).dailyLog = s.dailyLog ++ [logEntryData m s]) ∧
    (∀ l₁ t l₂, s.dailyLog = l₁ ++ t :: l₂ → (∀ x ∈ l₁, x.day ≠ s.currentDay) →
      t.day = s.currentDay →
      (handleEndPractice m s).dailyLog = l₁ ++ logEntryData m s :: l₂) := by
  refine ⟨rfl, rfl, rfl, rfl, rfl, rfl, rfl, rfl, rfl, rfl, ?_, ?_, ?_, ?_⟩
  · intro h; simp [startOfDayEnergy, h]
  · intro e he; simp [startOfDayEnergy, he]
  · intro h
    show upsertByDay (logEntryData m s) s.dailyLog = _
    exact upsertByDay_of_not_mem _ _ (fun e he => h e he)
  · intro l₁ t l₂ hsplit h₁ ht
    show upsertByDay (logEntryData m s) s.dailyLog = _
    rw [hsplit]
    exact upsertByDay_replace _ _ _ _ (fun x hx => h₁ x hx) ht

/-- C2 witness: day-1 practice of 40 minutes from the initial state. -/
theorem handleEndPractice_spec_witness :
    (handleEndPractice 40 initialState).dailyLog
      = initialState.dailyLog ++ [logEntryData 40 initialState] ∧
    (handleEndPractice 40 initialState).currentEnergy
      = startOfDayEnergy initialState * calculateGrowthFactor 40 := by
  refine ⟨(handleEndPractice_spec 40 initialState).2.2.2.2.2.2.2.2.2.2.2.2.1
    (by intro e he; simp [initialState] at he), ?_⟩
  exact (handleEndPractice_spec 40 initialState).1

/-! ## C9: edit-request rejection is state-preserving -/

/-- C9: `handleEditMinutes` rejects non-numeric input, negative minutes,
an unknown target day, and a skip-day target, in every case returning
the state (log, `currentEnergy`, `currentDay`) completely unchanged. -/
theorem handleEditMinutes_reject (ok : Bool) (d : Int) (s : EngineState) :
    handleEditMinutes ok d none s = s ∧
    (∀ m : Int, m < 0 → handleEditMinutes ok d (some m) s = s) ∧
    (s.dailyLog.findIdx? (fun l => l.day = d) = none →
      ∀ m : Int, handleEditMinutes ok d (some m) s = s) ∧
    (∀ i target m, s.dailyLog.findIdx? (fun l => l.day = d) = some i →
      s.dailyLog[i]? = some target → target.practice = false →
      handleEditMinutes ok d (some m) s = s) := by
  refine ⟨rfl, fun m hm => ?_, fun hnone m => ?_, fun i target m hidx hget hpr => ?_⟩
  · simp [handleEditMinutes, hm]
  · by_cases hm : m < 0
    · simp [handleEditMinutes, hm]
    · simp [handleEditMinutes, hm, hnone]
  · by_cases hm : m < 0
    · simp [handleEditMinutes, hm]
    · simp [handleEditMinutes, hm, hidx, hget, hpr]

/-! ## Recalculation-loop lemmas -/

theorem recalcEntry_keeps_day_practice_minutes (p : Rat) (e : DayEntry) :
    (recalcEntry p e).day = e.day ∧ (recalcEntry p e).practice = e.practice ∧
    (recalcEntry p e).minutes = e.minutes := by
  by_cases h : e.practice <;> simp [recalcEntry, h]

theorem recalcEntry_idem (p : Rat) (e : DayEntry) :
    recalcEntry p (recalcEntry p e) = recalcEntry p e := by
  by_cases h : e.practice <;> simp [recalcEntry, h]

theorem recalcList_length (p : Rat) (l : List DayEntry) :
    (recalcList p l).length = l.length := by
  induction l generalizing p with
  | nil => rfl
  | cons e rest ih => simp [recalcList, ih]

theorem recalcList_idem (p : Rat) (l : List DayEntry) :
    recalcList p (recalcList p l) = recalcList p l := by
  induction l generalizing p with
  | nil => rfl
  | cons e rest ih =>
    simp only [recalcList, recalcEntry_idem]
    rw [ih]

theorem recalculateEnergyFromDay_length (i : Nat) (l : List DayEntry) :
    (recalculateEnergyFromDay i l).length = l.length := by
  unfold recalculateEnergyFromDay
  simp [recalcList_length]
  omega

theorem recalculateEnergyFromDay_of_length_le (i : Nat) (l : List DayEntry)
    (h : l.length ≤ i) : recalculateEnergyFromDay i l = l := by
  unfold recalculateEnergyFromDay
  rw [List.drop_eq_nil_of_le h, List.take_of_length_le h]
  simp [recalcList]

theorem recalculateEnergyFromDay_idem (i : Nat) (l : List DayEntry) :
    recalculateEnergyFromDay i (recalculateEnergyFromDay i l)
      = recalculateEnergyFromDay i l := by
  by_cases hle : l.length ≤ i
  · rw [recalculateEnergyFromDay_of_length_le i l hle,
      recalculateEnergyFromDay_of_length_le i l hle]
  · push_neg at hle
    have htake : (l.take i).length = i := by rw [List.length_take]; omega
    simp only [recalculateEnergyFromDay]
    rw [List.take_left' htake, List.drop_left' htake]
    by_cases hi : 0 < i
    · have hidx : i - 1 < i := by omega
      rw [if_pos hi, if_pos hi, List.getElem?_append, if_pos (by omega),
        List.getElem?_take, if_pos hidx, recalcList_idem]
    · rw [if_neg hi, if_neg hi, recalcList_idem]

theorem recalcList_getElem_zero (p : Rat) (l : List DayEntry) :
    (recalcList p l)[0]? = (l[0]?).map (recalcEntry p) := by
  cases l <;> simp [recalcList]

theorem recalcList_getElem_succ (p : Rat) (l : List DayEntry) (j : Nat) (e : DayEntry)
    (h : (recalcList p l)[j]? = some e) :
    (recalcList p l)[j + 1]? = (l[j + 1]?).map (recalcEntry e.energy) := by
  induction l generalizing p j with
  | nil => simp [recalcList] at h
  | cons x rest ih =>
    cases j with
    | zero =>
      simp only [recalcList, List.getElem?_cons_zero, Option.some.injEq] at h
      subst h
      simp only [recalcList, List.getElem?_cons_succ]
      exact recalcList_getElem_zero _ _
    | succ j =>
      simp only [recalcList, List.getElem?_cons_succ] at h ⊢
      exact ih _ _ h

/-! ## Invariant infrastructure for reachable states -/

theorem mem_of_getLast?_some {l : List DayEntry} {a : DayEntry}
    (h : l.getLast? = some a) : a ∈ l := by
  rw [← List.dropLast_append_getLast? a h]
  exact List.mem_append_right _ (List.mem_singleton.mpr rfl)

/-- Invariant of reachable engine states: every logged day is at most
`currentDay`; every non-last entry is for a day strictly before
`currentDay`; the energy is 1 while the log is empty; and
`currentEnergy` rounds (2 decimals) to the last entry's energy. -/
def goodState (s : EngineState) : Prop :=
  (∀ e ∈ s.dailyLog, e.day ≤ s.currentDay) ∧
  (∀ e ∈ s.dailyLog.dropLast, e.day < s.currentDay) ∧
  (s.dailyLog = [] → s.currentEnergy = 1) ∧
  (∀ lastEntry, s.dailyLog.getLast? = some lastEntry →
    toFixed2 s.currentEnergy = toFixed2 lastEntry.energy)

theorem goodState_initial : goodState initialState := by
  refine ⟨?_, ?_, fun _ => rfl, ?_⟩ <;> intro e he <;> simp [initialState] at he

/-- Appending an entry for `currentDay` whose stored energy is the
rounded new current energy, then advancing the day, preserves the
invariant (shared shape of `logSkippedDay` and the implicit-skip branch
of `advanceToNextDay`). -/
theorem goodState_appendAdvance (s : EngineState) (h : goodState s) (x : Rat)
    (entry : DayEntry) (hd : entry.day = s.currentDay) (he : entry.energy = toFixed2 x) :
    goodState { dailyLog := s.dailyLog ++ [entry], currentDay := s.currentDay + 1,
                currentEnergy := x } := by
  refine ⟨?_, ?_, ?_, ?_⟩ <;> dsimp only
  · intro e hmem
    rcases List.mem_append.mp hmem with h1 | h1
    · exact le_trans (h.1 e h1) (by omega)
    · rw [List.mem_singleton.mp h1, hd]
      omega
  · intro e hmem
    rw [List.dropLast_concat] at hmem
    exact lt_of_le_of_lt (h.1 e hmem) (by omega)
  · intro habs
    simp at habs
  · intro lastEntry hlast
    rw [List.getLast?_concat] at hlast
    injection hlast with hlast
    rw [← hlast, he, toFixed2_idem]

theorem goodState_logSkippedDay (s : EngineState) (h : goodState s) :
    goodState (logSkippedDay s) :=
  goodState_appendAdvance s h _ _ rfl rfl

theorem goodState_advanceToNextDay (s : EngineState) (h : goodState s) :
    goodState (advanceToNextDay s) := by
  unfold advanceToNextDay
  split
  · refine ⟨?_, ?_, h.2.2.1, h.2.2.2⟩ <;> dsimp only
    · intro e hmem
      exact le_trans (h.1 e hmem) (by omega)
    · intro e hmem
      exact lt_of_le_of_lt (h.1 e (List.dropLast_subset _ hmem)) (by omega)
  · exact goodState_appendAdvance s h _ _ rfl rfl

theorem upsertByDay_ne_nil (entry : DayEntry) (l : List DayEntry) :
    upsertByDay entry l ≠ [] := by
  cases l with
  | nil => simp [upsertByDay]
  | cons x rest =>
    simp only [upsertByDay]
    split <;> simp

/-- Under the invariant on days, the replace-or-append of an entry for
day `d` keeps all days at most `d`, keeps all non-last days below `d`,
and puts the new entry last. -/
theorem upsertByDay_invariant (entry : DayEntry) (l : List DayEntry) (d : Int)
    (hle : ∀ e ∈ l, e.day ≤ d) (hlt : ∀ e ∈ l.dropLast, e.day < d)
    (hd : entry.day = d) :
    (∀ e ∈ upsertByDay entry l, e.day ≤ d) ∧
    (∀ e ∈ (upsertByDay entry l).dropLast, e.day < d) ∧
    (upsertByDay entry l).getLast? = some entry := by
  induction l with
  | nil =>
    refine ⟨?_, ?_, rfl⟩
    · intro e hmem
      rw [show upsertByDay entry [] = [entry] from rfl] at hmem
      rw [List.mem_singleton.mp hmem, hd]
    · intro e hmem
      simp [upsertByDay] at hmem
  | cons x rest ih =>
    by_cases hx : x.day = entry.day
    · have hrest : rest = [] := by
        by_contra hnil
        have hxmem : x ∈ (x :: rest).dropLast := by
          rw [List.dropLast_cons_of_ne_nil hnil]
          exact List.mem_cons_self x rest.dropLast
        have := hlt x hxmem
        omega
      subst hrest
      simp only [upsertByDay, if_pos hx]
      refine ⟨?_, ?_, rfl⟩
      · intro e hmem
        rw [List.mem_singleton.mp hmem, hd]
      · intro e hmem
        simp at hmem
    · have hlt' : ∀ e ∈ rest.dropLast, e.day < d := by
        intro e hmem
        cases rest with
        | nil => simp at hmem
        | cons y ys =>
          refine hlt e ?_
          rw [List.dropLast_cons_of_ne_nil (by simp)]
          exact List.mem_cons_of_mem x hmem
      have hrec := ih (fun e hmem => hle e (List.mem_cons_of_mem x hmem)) hlt'
      simp only [upsertByDay, if_neg hx]
      refine ⟨?_, ?_, ?_⟩
      · intro e hmem
        rcases List.mem_cons.mp hmem with h1 | h1
        · rw [h1]; exact hle x (List.mem_cons_self x rest)
        · exact hrec.1 e h1
      · intro e hmem
        rw [List.dropLast_cons_of_ne_nil (upsertByDay_ne_nil entry rest)] at hmem
        rcases List.mem_cons.mp hmem with h1 | h1
        · rw [h1]
          have := hle x (List.mem_cons_self x rest)
          omega
        · exact hrec.2.1 e h1
      · rcases hu : upsertByDay entry rest with _ | ⟨u, us⟩
        · exact absurd hu (upsertByDay_ne_nil entry rest)
        · rw [List.getLast?_cons_cons, ← hu]
          exact hrec.2.2

theorem goodState_handleEndPractice (m : Int) (s : EngineState) (h : goodState s) :
    goodState (handleEndPractice m s) := by
  have hu := upsertByDay_invariant (logEntryData m s) s.dailyLog s.currentDay h.1 h.2.1 rfl
  simp only [handleEndPractice]
  refine ⟨?_, ?_, ?_, ?_⟩ <;> dsimp only
  · exact hu.1
  · exact hu.2.1
  · intro habs
    exact absurd habs (upsertByDay_ne_nil _ _)
  · intro lastEntry hlast
    rw [hu.2.2] at hlast
    injection hlast with hlast
    rw [← hlast]
    simp only [logEntryData]
    exact (toFixed2_idem _).symm

theorem goodState_resetSimulation (c ok : Bool) (s : EngineState) (h : goodState s) :
    goodState (resetSimulation c ok s) := by
  unfold resetSimulation
  split
  · exact h
  · split
    · exact h
    · exact goodState_initial

theorem day_le_getLast_of_sorted (data : List DayEntry)
    (hsort : data.Pairwise (fun a b => a.day < b.day)) :
    ∀ (lastLog : DayEntry), data.getLast? = some lastLog →
      ∀ e ∈ data, e.day ≤ lastLog.day := by
  induction data with
  | nil => intro lastLog hlast; simp at hlast
  | cons x rest ih =>
    intro lastLog hlast e hmem
    cases rest with
    | nil =>
      simp at hlast hmem
      rw [hmem, hlast]
    | cons y ys =>
      rw [List.getLast?_cons_cons] at hlast
      rcases List.mem_cons.mp hmem with h1 | h1
      · have hmem' : lastLog ∈ y :: ys := mem_of_getLast?_some hlast
        have := (List.pairwise_cons.mp hsort).1 lastLog hmem'
        rw [h1]; omega
      · exact ih (List.pairwise_cons.mp hsort).2 lastLog hlast e h1

theorem goodState_loadLog (ok : Bool) (data : List DayEntry)
    (hsort : data.Pairwise (fun a b => a.day < b.day)) :
    goodState (loadLog ok data) := by
  unfold loadLog
  split
  · exact goodState_initial
  · split
    · exact goodState_initial
    · next lastLog hlast =>
      refine ⟨?_, ?_, ?_, ?_⟩ <;> dsimp only
      · intro e hmem
        have := day_le_getLast_of_sorted data hsort lastLog hlast e hmem
        omega
      · intro e hmem
        have := day_le_getLast_of_sorted data hsort lastLog hlast e
          (List.dropLast_subset _ hmem)
        omega
      · intro habs
        rw [habs] at hlast
        exact absurd hlast (by simp)
      · intro lastEntry hl
        rw [hlast] at hl
        injection hl with hl
        rw [hl]

theorem recalcList_day (p : Rat) (l : List DayEntry) (j : Nat) :
    ((recalcList p l)[j]?).map (fun e => e.day) = (l[j]?).map (fun e => e.day) := by
  induction l generalizing p j with
  | nil => rfl
  | cons x rest ih =>
    cases j with
    | zero =>
      simp only [recalcList, List.getElem?_cons_zero, Option.map_some']
      rw [(recalcEntry_keeps_day_practice_minutes p x).1]
    | succ j =>
      simp only [recalcList, List.getElem?_cons_succ]
      exact ih _ _

theorem recalculateEnergyFromDay_day (i : Nat) (l : List DayEntry) (j : Nat) :
    ((recalculateEnergyFromDay i l)[j]?).map (fun e => e.day)
      = (l[j]?).map (fun e => e.day) := by
  by_cases hle : l.length ≤ i
  · rw [recalculateEnergyFromDay_of_length_le i l hle]
  · push_neg at hle
    have htake : (l.take i).length = i := by rw [List.length_take]; omega
    simp only [recalculateEnergyFromDay]
    rw [List.getElem?_append, htake]
    by_cases hj : j < i
    · rw [if_pos hj, List.getElem?_take, if_pos hj]
    · rw [if_neg hj, recalcList_day, List.getElem?_drop,
        show i + (j - i) = j from by omega]

theorem recalculateEnergyFromDay_map_day (i : Nat) (l : List DayEntry) :
    (recalculateEnergyFromDay i l).map (fun e => e.day) = l.map (fun e => e.day) := by
  apply List.ext_getElem?
  intro n
  simp only [List.getElem?_map]
  exact recalculateEnergyFromDay_day i l n

/-- When the input log has the same day sequence as the state's log, the
state update performed at the end of a recompute preserves the
invariant, whatever the energies computed — `currentEnergy` is set to
the energy of a stored entry that the day bounds force to be the last
one. -/
theorem goodState_recalculateEnergyFromDayOp (ok : Bool) (i : Nat) (l' : List DayEntry)
    (s : EngineState) (h : goodState s)
    (hmap : l'.map (fun e => e.day) = s.dailyLog.map (fun e => e.day)) :
    goodState (recalculateEnergyFromDayOp ok i l' s) := by
  unfold recalculateEnergyFromDayOp
  split
  · exact h
  · set L := recalculateEnergyFromDay i l' with hL
    have hmapL : L.map (fun e => e.day) = s.dailyLog.map (fun e => e.day) := by
      rw [hL, recalculateEnergyFromDay_map_day, hmap]
    have hle : ∀ e ∈ L, e.day ≤ s.currentDay := by
      intro e hmem
      have hd : e.day ∈ L.map (fun e => e.day) := List.mem_map_of_mem _ hmem
      rw [hmapL] at hd
      rcases List.mem_map.mp hd with ⟨e1, he1, hday⟩
      rw [← hday]
      exact h.1 e1 he1
    have hlt : ∀ e ∈ L.dropLast, e.day < s.currentDay := by
      intro e hmem
      have hd : e.day ∈ L.dropLast.map (fun e => e.day) := List.mem_map_of_mem _ hmem
      rw [List.map_dropLast, hmapL, ← List.map_dropLast] at hd
      rcases List.mem_map.mp hd with ⟨e1, he1, hday⟩
      rw [← hday]
      exact h.2.1 e1 he1
    refine ⟨?_, ?_, ?_, ?_⟩ <;> dsimp only
    · exact hle
    · exact hlt
    · intro habs
      rw [habs]
      simp [findLastJS]
    · intro lastEntry hlast
      have hsplitL : L.dropLast ++ [lastEntry] = L :=
        List.dropLast_append_getLast? lastEntry hlast
      rcases hfind : L.find? (fun l => l.day = s.currentDay) with _ | e
      · have hnone : ∀ e ∈ L, e.day ≠ s.currentDay := by
          intro e hmem
          simpa using List.find?_eq_none.mp hfind e hmem
        have hlast_lt : lastEntry.day < s.currentDay := by
          have h1 := hle lastEntry (mem_of_getLast?_some hlast)
          have h2 := hnone lastEntry (mem_of_getLast?_some hlast)
          omega
        have hrev : L.reverse = lastEntry :: L.dropLast.reverse := by
          conv_lhs => rw [← hsplitL]
          rw [List.reverse_append]
          rfl
        have hfl : findLastJS (fun l => l.day < s.currentDay) L = some lastEntry := by
          rw [findLastJS, hrev]
          exact List.find?_cons_of_pos _ (by simpa using hlast_lt)
        simp [hfind, hfl]
      · have hmem := List.mem_of_find?_eq_some hfind
        have hday : e.day = s.currentDay := by simpa using List.find?_some hfind
        have he_last : e = lastEntry := by
          rw [← hsplitL] at hmem
          rcases List.mem_append.mp hmem with h1 | h1
          · have := hlt e h1
            omega
          · simpa using h1
        simp [hfind, he_last]

theorem goodState_handleEditMinutes (ok : Bool) (d : Int) (m : Option Int)
    (s : EngineState) (h : goodState s) : goodState (handleEditMinutes ok d m s) := by
  unfold handleEditMinutes
  cases m with
  | none => exact h
  | some mv =>
    simp only
    split
    · exact h
    · split
      · exact h
      · next i hidx =>
        split
        · exact h
        · next target hget =>
          split
          · exact h
          · split
            · exact h
            · apply goodState_recalculateEnergyFromDayOp _ _ _ _ h
              apply List.ext_getElem?
              intro n
              simp only [List.getElem?_map]
              by_cases hn : n = i
              · subst hn
                rw [List.getElem?_set_self, hget]
                · rfl
                · exact getElem_some_lt_length hget
              · rw [List.getElem?_set_ne (Ne.symm hn)]

theorem goodState_of_reachable (s : EngineState) (h : Reachable s) : goodState s := by
  induction h with
  | init => exact goodState_initial
  | endPractice s ok m _ ih => exact goodState_handleEndPractice m s ih
  | skip s ok _ ih => exact goodState_logSkippedDay s ih
  | advance s _ ih => exact goodState_advanceToNextDay s ih
  | edit s ok d m _ ih => exact goodState_handleEditMinutes ok d m s ih
  | reset s c ok _ ih => exact goodState_resetSimulation c ok s ih
  | load ok data hsort => exact goodState_loadLog ok data hsort

/-! ## C5: currentEnergy tracks the last log entry -/

/-- C5 (amended): in every reachable state, `currentEnergy` is 1 when
the log is empty, and otherwise rounds (to 2 decimals) to the energy of
the last log entry.  Exact equality does not hold, because the append
operations store the unrounded product in `currentEnergy` but the
2-decimal-rounded value in the entry. -/
theorem currentEnergy_tracks_lastEntry (s : EngineState) (h : Reachable s) :
    (s.dailyLog = [] → s.currentEnergy = 1) ∧
    (∀ lastEntry, s.dailyLog.getLast? = some lastEntry →
      toFixed2 s.currentEnergy = toFixed2 lastEntry.energy) :=
  ⟨(goodState_of_reachable s h).2.2.1, (goodState_of_reachable s h).2.2.2⟩

/-- C5 witness: in the reachable one-skip state, `currentEnergy` rounds
to the stored energy of the (last) skip entry. -/
theorem currentEnergy_tracks_lastEntry_witness :
    toFixed2 (logSkippedDay initialState).currentEnergy
      = toFixed2 (toFixed2 (initialState.currentEnergy
          - initialState.currentEnergy * dailyEnergyLoss)) :=
  (currentEnergy_tracks_lastEntry (logSkippedDay initialState)
      (Reachable.skip initialState true Reachable.init)).2
    { day := initialState.currentDay
      energy := toFixed2 (initialState.currentEnergy
        - initialState.currentEnergy * dailyEnergyLoss)
      practice := false
      minutes := 0
      gain := none
      loss := some (toFixed2 (initialState.currentEnergy * dailyEnergyLoss))
      growthFactor := none }
    (by simp [logSkippedDay, initialState])

/-- C5 counterexample: after one practice append (40 minutes, day 1) —
a reachable state — `currentEnergy` is the unrounded 1.052496 while the
last entry stores 1.05, so the exact equality of the claim fails. -/
theorem currentEnergy_exact_equality_cex :
    Reachable (handleEndPracticeOp true 40 initialState) ∧
    (handleEndPracticeOp true 40 initialState).currentEnergy
      ≠ (((handleEndPracticeOp true 40 initialState).dailyLog.getLast?).map
          (fun e => e.energy)).getD 1 := by
  refine ⟨Reachable.endPractice initialState true 40 Reachable.init, ?_⟩
  norm_num [handleEndPracticeOp, handleEndPractice, initialState, upsertByDay,
    logEntryData, startOfDayEnergy, calculateGrowthFactor, toFixed2, jsRound]

/-! ## C1: suffix-recompute postcondition of an accepted edit -/

/-- C1: for an accepted edit (valid non-negative minutes, existing
practice-day target, changed value) the engine keeps `currentDay` and
the log length, leaves every entry before the edited index unchanged,
recomputes the edited entry starting from the energy of the entry
immediately preceding it (1 when it is the first entry), and recomputes
each later entry from the previous freshly recomputed energy, where the
transition multiplies by the growth factor on practice entries and
subtracts the 10% decay on skip entries. -/
theorem suffix_recompute_postcondition (s : EngineState) (d m : Int)
    (i : Nat) (target : DayEntry)
    (hidx : s.dailyLog.findIdx? (fun l => l.day = d) = some i)
    (hget : s.dailyLog[i]? = some target)
    (hpr : target.practice = true)
    (hne : target.minutes ≠ m)
    (hm : 0 ≤ m) :
    (handleEditMinutes true d (some m) s).currentDay = s.currentDay ∧
    (handleEditMinutes true d (some m) s).dailyLog.length = s.dailyLog.length ∧
    (∀ j, j < i → (handleEditMinutes true d (some m) s).dailyLog[j]? = s.dailyLog[j]?) ∧
    (handleEditMinutes true d (some m) s).dailyLog[i]?
      = some (recalcEntry
          (if 0 < i then ((s.dailyLog[i - 1]?).map (fun e => e.energy)).getD 1 else 1)
          { target with minutes := m }) ∧
    (∀ j e, i ≤ j → (handleEditMinutes true d (some m) s).dailyLog[j]? = some e →
      (handleEditMinutes true d (some m) s).dailyLog[j + 1]?
        = (s.dailyLog[j + 1]?).map (recalcEntry e.energy)) ∧
    (∀ (p : Rat) (e : DayEntry), e.practice = true → recalcEntry p e =
      { e with energy := toFixed2 (p * calculateGrowthFactor (e.minutes : Rat))
               gain := some (toFixed2 (p * calculateGrowthFactor (e.minutes : Rat) - p))
               growthFactor := some (toFixed6 (calculateGrowthFactor (e.minutes : Rat)))
               loss := none }) ∧
    (∀ (p : Rat) (e : DayEntry), e.practice = false → recalcEntry p e =
      { e with energy := toFixed2 (p - p * dailyEnergyLoss)
               loss := some (toFixed2 (p * dailyEnergyLoss))
               gain := none
               growthFactor := none }) := by
  have hm' : ¬ m < 0 := not_lt.mpr hm
  have hi : i < s.dailyLog.length := getElem_some_lt_length hget
  have hred : handleEditMinutes true d (some m) s
      = recalculateEnergyFromDayOp true i
          (s.dailyLog.set i { target with minutes := m }) s := by
    simp [handleEditMinutes, hm', hidx, hget, hpr, hne]
  have hlen' : (s.dailyLog.set i { target with minutes := m }).length
      = s.dailyLog.length := by simp
  have hlog : (handleEditMinutes true d (some m) s).dailyLog
      = recalculateEnergyFromDay i (s.dailyLog.set i { target with minutes := m }) := by
    rw [hred]; simp [recalculateEnergyFromDayOp]
  have hday : (handleEditMinutes true d (some m) s).currentDay = s.currentDay := by
    rw [hred]; simp [recalculateEnergyFromDayOp]
  have htake : ((s.dailyLog.set i { target with minutes := m }).take i).length = i := by
    rw [List.length_take]; omega
  have hprev : ((if 0 < i then
        (((s.dailyLog.set i { target with minutes := m })[i - 1]?).map
          (fun l => l.energy)).getD 1 else 1) : Rat)
      = if 0 < i then ((s.dailyLog[i - 1]?).map (fun e => e.energy)).getD 1 else 1 := by
    by_cases h0 : 0 < i
    · rw [if_pos h0, if_pos h0, List.getElem?_set_ne (by omega : i ≠ i - 1)]
    · rw [if_neg h0, if_neg h0]
  have hp : recalculateEnergyFromDay i (s.dailyLog.set i { target with minutes := m })
      = (s.dailyLog.set i { target with minutes := m }).take i
        ++ recalcList
          (if 0 < i then ((s.dailyLog[i - 1]?).map (fun e => e.energy)).getD 1 else 1)
          ((s.dailyLog.set i { target with minutes := m }).drop i) := by
    simp only [recalculateEnergyFromDay]
    rw [hprev]
  refine ⟨hday, ?_, ?_, ?_, ?_, ?_, ?_⟩
  · rw [hlog, recalculateEnergyFromDay_length, hlen']
  · intro j hj
    rw [hlog, hp, List.getElem?_append, htake, if_pos hj, List.getElem?_take, if_pos hj,
      List.getElem?_set_ne (by omega : i ≠ j)]
  · rw [hlog, hp, List.getElem?_append, htake, if_neg (by omega),
      show i - i = 0 from by omega, recalcList_getElem_zero, List.getElem?_drop,
      show i + 0 = i from rfl, List.getElem?_set_self]
    · rfl
    · omega
  · intro j e hij hje
    rw [hlog, hp] at hje ⊢
    rw [List.getElem?_append, htake, if_neg (by omega)] at hje
    have hsucc := recalcList_getElem_succ _ _ _ _ hje
    rw [List.getElem?_append, htake, if_neg (by omega),
      show j + 1 - i = (j - i) + 1 from by omega, hsucc, List.getElem?_drop,
      show i + (j - i + 1) = j + 1 from by omega,
      List.getElem?_set_ne (by omega : i ≠ j + 1)]
  · intro p e hp2
    simp [recalcEntry, hp2]
  · intro p e hp2
    simp [recalcEntry, hp2]

/-- C1 witness: after practicing 40 minutes on day 1, advancing, and
skipping day 2, editing day 1 to 60 minutes keeps `currentDay`. -/
theorem suffix_recompute_witness :
    (handleEditMinutes true 1 (some 60)
        (logSkippedDay (advanceToNextDay (handleEndPractice 40 initialState)))).currentDay
      = (logSkippedDay (advanceToNextDay (handleEndPractice 40 initialState))).currentDay :=
  (suffix_recompute_postcondition
    (logSkippedDay (advanceToNextDay (handleEndPractice 40 initialState))) 1 60 0
    (logEntryData 40 initialState)
    (by simp [logSkippedDay, advanceToNextDay, handleEndPractice, initialState,
      upsertByDay, logEntryData, List.findIdx?])
    (by simp [logSkippedDay, advanceToNextDay, handleEndPractice, initialState,
      upsertByDay, logEntryData])
    rfl (by norm_num [logEntryData]) (by norm_num)).1

/-! ## C7: no-op edit and recompute idempotence -/

/-- C7 (amended): requesting an edit of a practice day's minutes to the
value already stored is a no-op; and the suffix recompute is idempotent
as an operation (recomputing a second time with the same start index
changes nothing).  However, a log produced by live appends is not
necessarily a fixed point of the first recompute, because the live skip
transition compounds the unrounded `currentEnergy` while the recompute
compounds the stored rounded energies. -/
theorem edit_noop_and_recalc_idem :
    (∀ (ok : Bool) (d m : Int) (s : EngineState) (i : Nat) (target : DayEntry),
      s.dailyLog.findIdx? (fun l => l.day = d) = some i →
      s.dailyLog[i]? = some target → target.practice = true → target.minutes = m →
      handleEditMinutes ok d (some m) s = s) ∧
    (∀ (i : Nat) (l : List DayEntry),
      recalculateEnergyFromDay i (recalculateEnergyFromDay i l)
        = recalculateEnergyFromDay i l) := by
  refine ⟨fun ok d m s i target hidx hget hpr hmin => ?_, recalculateEnergyFromDay_idem⟩
  by_cases hm : m < 0
  · simp [handleEditMinutes, hm]
  · simp [handleEditMinutes, hm, hidx, hget, hpr, hmin]

/-- C7 witness: re-submitting day 1's stored 40 minutes is a no-op, and
a double recompute of the recomputed one-practice log is the single
recompute. -/
theorem edit_noop_witness :
    handleEditMinutes true 1 (some 40) (handleEndPractice 40 initialState)
      = handleEndPractice 40 initialState ∧
    recalculateEnergyFromDay 0
        (recalculateEnergyFromDay 0 (handleEndPractice 40 initialState).dailyLog)
      = recalculateEnergyFromDay 0 (handleEndPractice 40 initialState).dailyLog :=
  ⟨edit_noop_and_recalc_idem.1 true 1 40 (handleEndPractice 40 initialState) 0
      (logEntryData 40 initialState)
      (by simp [handleEndPractice, initialState, upsertByDay, logEntryData, List.findIdx?])
      (by simp [handleEndPractice, initialState, upsertByDay]) rfl rfl,
   edit_noop_and_recalc_idem.2 0 (handleEndPractice 40 initialState).dailyLog⟩

/-- C7 counterexample: the log built by a live practice (35 minutes,
day 1) followed by a live skip (day 2) is changed by a recompute with
unchanged minute values — the live skip compounded the unrounded energy
1.045406, storing day-2 energy 0.94 and loss 0.10, while the recompute
compounds the rounded 1.05, producing 0.95 and 0.11. -/
theorem recalc_changes_live_log_cex :
    recalculateEnergyFromDay 0 (logSkippedDay (handleEndPractice 35 initialState)).dailyLog
      ≠ (logSkippedDay (handleEndPractice 35 initialState)).dailyLog := by
  norm_num [recalculateEnergyFromDay, recalcList, recalcEntry, logSkippedDay,
    handleEndPractice, logEntryData, startOfDayEnergy, initialState, upsertByDay,
    calculateGrowthFactor, dailyEnergyLoss, toFixed2, toFixed6, jsRound]

/-! ## C8: persistence-failure atomicity -/

/-- C8 (amended): on persistence failure, reset and the minutes-edit /
suffix-recompute path leave the in-memory state exactly unchanged; but
the append operations (`handleEndPractice`, `logSkippedDay`) update the
in-memory state before persisting and swallow the failure, so their
in-memory effect survives a failed persistence call. -/
theorem persistence_atomicity_amended :
    (∀ (s : EngineState) (c : Bool), resetSimulation c false s = s) ∧
    (∀ (i : Nat) (l : List DayEntry) (s : EngineState), i < l.length →
      recalculateEnergyFromDayOp false i l s = s) ∧
    (∀ (s : EngineState) (d : Int) (m : Option Int), handleEditMinutes false d m s = s) ∧
    handleEndPracticeOp false 40 initialState ≠ initialState ∧
    logSkippedDayOp false initialState ≠ initialState := by
  have hrecalc : ∀ (i : Nat) (l : List DayEntry) (s : EngineState), i < l.length →
      recalculateEnergyFromDayOp false i l s = s := by
    intro i l s h
    simp [recalculateEnergyFromDayOp, h]
  refine ⟨fun s c => ?_, hrecalc, fun s d m => ?_,
    by norm_num [handleEndPracticeOp, handleEndPractice, initialState, upsertByDay,
      EngineState.mk.injEq],
    by norm_num [logSkippedDayOp, logSkippedDay, initialState, EngineState.mk.injEq]⟩
  · simp [resetSimulation]
  · unfold handleEditMinutes
    cases m with
    | none => rfl
    | some mv =>
      simp only
      split
      · rfl
      · split
        · rfl
        · next i hidx =>
          split
          · rfl
          · next target hget =>
            split
            · rfl
            · split
              · rfl
              · refine hrecalc _ _ _ ?_
                have hi : i < s.dailyLog.length := getElem_some_lt_length hget
                simpa using hi

/-- C8 witness: a failed-persistence recompute and a failed-persistence
reset leave concrete states untouched. -/
theorem persistence_atomicity_witness :
    recalculateEnergyFromDayOp false 0 (logSkippedDay initialState).dailyLog initialState
      = initialState ∧
    resetSimulation true false (logSkippedDay initialState) = logSkippedDay initialState :=
  ⟨persistence_atomicity_amended.2.1 0 _ initialState (by simp [logSkippedDay, initialState]),
   persistence_atomicity_amended.1 _ true⟩

/-- C8 counterexample: appending a skip day whose persistence call fails
still mutates the in-memory state (the log grows and `currentDay`
advances), so the claimed rollback does not happen for the append
operations. -/
theorem persistence_atomicity_cex :
    logSkippedDayOp false initialState ≠ initialState := by
  norm_num [logSkippedDayOp, logSkippedDay, initialState, EngineState.mk.injEq]

/-! ## C6: advance-day and the currentDay frame -/

/-- C6 (amended): advancing with no entry for `currentDay` synthesizes
an implicit skip entry (same formula as `logSkippedDay`) before
incrementing `currentDay`; advancing with an entry present only
increments; appending a practice day and editing minutes never change
`currentDay`; but `logSkippedDay` also increments `currentDay`, so
advance-day is not the only place it changes. -/
theorem advanceDay_frame :
    (∀ s : EngineState, s.dailyLog.any (fun l => l.day = s.currentDay) = false →
      advanceToNextDay s =
        { dailyLog := s.dailyLog ++
            [{ day := s.currentDay
               energy := toFixed2 (s.currentEnergy - s.currentEnergy * dailyEnergyLoss)
               practice := false
               minutes := 0
               gain := none
               loss := some (toFixed2 (s.currentEnergy * dailyEnergyLoss))
               growthFactor := none }]
          currentDay := s.currentDay + 1
          currentEnergy := s.currentEnergy - s.currentEnergy * dailyEnergyLoss }) ∧
    (∀ s : EngineState, s.dailyLog.any (fun l => l.day = s.currentDay) = true →
      advanceToNextDay s = { s with currentDay := s.currentDay + 1 }) ∧
    (∀ (m : Int) (s : EngineState), (handleEndPractice m s).currentDay = s.currentDay) ∧
    (∀ (ok : Bool) (d : Int) (m : Option Int) (s : EngineState),
      (handleEditMinutes ok d m s).currentDay = s.currentDay) ∧
    (∀ s : EngineState, (logSkippedDay s).currentDay = s.currentDay + 1) := by
  refine ⟨fun s h => ?_, fun s h => ?_, fun m s => rfl, fun ok d m s => ?_, fun s => rfl⟩
  · simp only [advanceToNextDay, h, Bool.false_eq_true, if_false]
  · simp only [advanceToNextDay, h, if_true]
  · unfold handleEditMinutes
    cases m with
    | none => rfl
    | some mv =>
      simp only
      split
      · rfl
      · split
        · rfl
        · split
          · rfl
          · split
            · rfl
            · split
              · rfl
              · unfold recalculateEnergyFromDayOp
                split
                · rfl
                · rfl

/-- C6 witness: advancing past the untouched initial day synthesizes the
implicit skip entry for day 1 and moves to day 2. -/
theorem advanceDay_frame_witness :
    advanceToNextDay initialState =
      { dailyLog := initialState.dailyLog ++
          [{ day := initialState.currentDay
             energy := toFixed2 (initialState.currentEnergy
               - initialState.currentEnergy * dailyEnergyLoss)
             practice := false
             minutes := 0
             gain := none
             loss := some (toFixed2 (initialState.currentEnergy * dailyEnergyLoss))
             growthFactor := none }]
        currentDay := initialState.currentDay + 1
        currentEnergy := initialState.currentEnergy
          - initialState.currentEnergy * dailyEnergyLoss } :=
  advanceDay_frame.1 initialState rfl

/-- C6 counterexample: `logSkippedDay` changes `currentDay` (it
auto-advances), so advance-day is not the only operation that changes
`currentDay`. -/
theorem skip_changes_currentDay_cex :
    (logSkippedDay initialState).currentDay ≠ initialState.currentDay := by
  norm_num [logSkippedDay, initialState]

/-- C9 witness: editing the (skipped) day 1 of the one-skip log, and a
non-numeric edit of the initial state, are both rejected unchanged. -/
theorem handleEditMinutes_reject_witness :
    handleEditMinutes true 1 none initialState = initialState ∧
    handleEditMinutes true 1 (some 25) (logSkippedDay initialState)
      = logSkippedDay initialState := by
  constructor
  · exact (handleEditMinutes_reject true 1 initialState).1
  · exact (handleEditMinutes_reject true 1 (logSkippedDay initialState)).2.2.2
      0 { day := 1, energy := 9 / 10, practice := false, minutes := 0,
          gain := none, loss := some (1 / 10), growthFactor := none }
      25 (by norm_num [logSkippedDay, initialState, List.findIdx?])
      (by norm_num [logSkippedDay, initialState, dailyEnergyLoss, toFixed2, jsRound])
      rfl
